import Mathlib

/-!
Verification of the Devon unified-diff patch engine specification, together
with the model-selection and onboarding-validation logic of the Electron
frontend.

The patch engine itself (diff parser and patch applier) is exercised by the
repository only through a test fixture; its definitions below are therefore
modelled directly from the specification's data model and algorithms.  Lines
of text are embedded as lists of characters (`Line`), so that the parser's
leading-character inspection and the whitespace-relaxed comparison are fully
explicit.
-/

namespace UnifiedDiff

/-- A line of text, embedded as its list of characters. -/
abbrev Line := List Char

/-- Tag of one line inside a hunk: unchanged context, removed from the
original, or added to the result. -/
inductive LineTag where
  | context
  | removed
  | added
deriving DecidableEq

/-- One tagged line of a hunk: its tag and its text with the leading
tag character stripped. -/
structure TaggedLine where
  tag : LineTag
  text : Line
deriving DecidableEq

/-- Modelled from the spec: one contiguous change region of a unified diff,
with the claimed 1-based source/target ranges from the `@@ -a,b +c,d @@`
header and the ordered tagged lines.  Counts are integers so that
structurally impossible (negative) counts are expressible, as required by
the apply-time `InvalidHunkError` contract. -/
structure Hunk where
  sourceStart : Int
  sourceCount : Int
  targetStart : Int
  targetCount : Int
  lines : List TaggedLine
deriving DecidableEq

/-- Status of one applied hunk. -/
inductive PatchStatus where
  | applied_exact
  | applied_fuzzy
  | failed
deriving DecidableEq

/-- Modelled from the spec: outcome of applying one hunk. -/
structure PatchResult where
  status : PatchStatus
  resolvedLine : Option Nat
  detail : Option Line
deriving DecidableEq

/-- Modelled from the spec: whole-file result of `apply`: final text and one
`PatchResult` per hunk, in hunk order. -/
structure PatchOutcome where
  text : List Line
  results : List PatchResult
deriving DecidableEq

/-- Parse-time fatal error (unparsable header / inconsistent line counts). -/
structure MalformedDiffError where
  msg : String
deriving DecidableEq

/-- Apply-time fatal error for structurally impossible hunks. -/
structure InvalidHunkError where
  msg : String
deriving DecidableEq

/-! ### Decimal numerals over character lists -/

/-- Numeric value of a decimal digit character. -/
def charToDigit (c : Char) : Nat := c.toNat - '0'.toNat

/-- Value of a big-endian list of decimal digit characters. -/
def digitsToNat (ds : List Char) : Nat :=
  ds.foldl (fun a c => 10 * a + charToDigit c) 0

/-- Big-endian decimal rendering of a positive number, with fuel for
structural termination. -/
def renderNatAux : Nat → Nat → List Char
  | 0, _ => []
  | _ + 1, 0 => []
  | fuel + 1, n + 1 =>
      renderNatAux fuel ((n + 1) / 10) ++ [Nat.digitChar ((n + 1) % 10)]

/-- Big-endian decimal rendering of a natural number. -/
def renderNat (n : Nat) : List Char :=
  if n = 0 then ['0'] else renderNatAux n n

/-- Longest leading run of decimal digits, and the remainder. -/
def takeDigits : Line → List Char × Line
  | [] => ([], [])
  | c :: cs =>
      if c.isDigit then
        let p := takeDigits cs
        (c :: p.1, p.2)
      else ([], c :: cs)

/-- Parse a decimal natural number from the front of a line. -/
def parseNat (l : Line) : Option (Nat × Line) :=
  let p := takeDigits l
  if p.1 = [] then none else some (digitsToNat p.1, p.2)

/-- Modelled from the spec: parse `start[,count]`; an omitted count defaults
to 1, matching unified-diff convention. -/
def parseRange (l : Line) : Option (Nat × Nat × Line) :=
  match parseNat l with
  | none => none
  | some (s, rest) =>
      match rest with
      | ',' :: r2 =>
          match parseNat r2 with
          | none => none
          | some (c, r3) => some (s, c, r3)
      | _ => some (s, 1, rest)

/-- Modelled from the spec: parse the remainder of a hunk header after the
leading `@@ -`, i.e. `a[,b] +c[,d] @@...`; trailing text after the closing
`@@` is ignored. -/
def parseHeader (l : Line) : Option (Nat × Nat × Nat × Nat) :=
  match parseRange l with
  | none => none
  | some (s, sc, rest) =>
      match rest with
      | ' ' :: '+' :: r2 =>
          match parseRange r2 with
          | none => none
          | some (t, tc, r3) =>
              match r3 with
              | ' ' :: '@' :: '@' :: _ => some (s, sc, t, tc)
              | _ => none
      | _ => none

/-- Strip an expected leading character sequence from a line; `none` when the
line does not begin with it. -/
def dropPre : List Char → Line → Option Line
  | [], l => some l
  | _ :: _, [] => none
  | p :: ps, c :: cs => if c = p then dropPre ps cs else none

/-- Classification of a single diff line. -/
inductive ParsedLine where
  | hunkHead (s sc t tc : Nat)
  | badHead
  | fileHeader
  | body (tag : LineTag) (text : Line)
  | other
deriving DecidableEq

/-- Modelled from the spec: classify one diff line.  A line beginning
`@@ -` is a hunk header (bad when the four integers cannot be parsed);
lines beginning `---` or `+++` are file headers to be skipped; otherwise the
leading character ` `, `-`, `+` tags the line and is stripped. -/
def classifyLine (l : Line) : ParsedLine :=
  match dropPre ['@', '@', ' ', '-'] l with
  | some rest =>
      (match parseHeader rest with
       | some (s, sc, t, tc) => .hunkHead s sc t tc
       | none => .badHead)
  | none =>
      match dropPre ['-', '-', '-'] l, dropPre ['+', '+', '+'] l with
      | some _, _ => .fileHeader
      | _, some _ => .fileHeader
      | none, none =>
          match dropPre [' '] l with
          | some t => .body .context t
          | none =>
              match dropPre ['-'] l with
              | some t => .body .removed t
              | none =>
                  match dropPre ['+'] l with
                  | some t => .body .added t
                  | none => .other

/-- Number of context plus removed lines (what the source range covers). -/
def ctxRemCount (ls : List TaggedLine) : Nat :=
  (ls.filter (fun tl => tl.tag ≠ LineTag.added)).length

/-- Number of context plus added lines (what the target range covers). -/
def ctxAddCount (ls : List TaggedLine) : Nat :=
  (ls.filter (fun tl => tl.tag ≠ LineTag.removed)).length

/-- Modelled from the spec: finish one hunk, rejecting inconsistent line
counts (a declared count that does not match the tagged lines). -/
def mkHunk (s sc t tc : Nat) (ls : List TaggedLine) :
    Except MalformedDiffError Hunk :=
  if sc = ctxRemCount ls ∧ tc = ctxAddCount ls then
    .ok ⟨(s : Int), (sc : Int), (t : Int), (tc : Int), ls⟩
  else .error ⟨"inconsistent line counts in hunk"⟩

/-- Modelled from the spec: scan the body of the current hunk (header fields
and accumulated reversed lines given), producing the hunk list. -/
def parseInHunk (s sc t tc : Nat) (acc : List TaggedLine) :
    List Line → Except MalformedDiffError (List Hunk)
  | [] =>
      match mkHunk s sc t tc acc.reverse with
      | .ok h => .ok [h]
      | .error e => .error e
  | l :: rest =>
      match classifyLine l with
      | .hunkHead s2 sc2 t2 tc2 =>
          match mkHunk s sc t tc acc.reverse, parseInHunk s2 sc2 t2 tc2 [] rest with
          | .ok h, .ok hs => .ok (h :: hs)
          | .error e, _ => .error e
          | .ok _, .error e => .error e
      | .badHead => .error ⟨"unparsable hunk header"⟩
      | .fileHeader => parseInHunk s sc t tc acc rest
      | .body tag txt => parseInHunk s sc t tc (⟨tag, txt⟩ :: acc) rest
      | .other => .error ⟨"unrecognized line in hunk body"⟩

/-- Modelled from the spec: scan lines before the first hunk header (file
headers and any preamble are skipped), then hand over to the in-hunk scan. -/
def parsePre : List Line → Except MalformedDiffError (List Hunk)
  | [] => .ok []
  | l :: rest =>
      match classifyLine l with
      | .hunkHead s sc t tc => parseInHunk s sc t tc [] rest
      | .badHead => .error ⟨"unparsable hunk header"⟩
      | _ => parsePre rest

/-- Modelled from the spec: the diff parser, `parse(diff_text) -> Hunk list`
(the splitting of raw text into lines is ambient: input is the diff's line
sequence). -/
def parse (diffLines : List Line) : Except MalformedDiffError (List Hunk) :=
  parsePre diffLines

/-! ### Patch applier -/

/-- Modelled from the spec: the fixed maximum fuzzy-search offset (the
documented tunable window constant). -/
def maxFuzzyOffset : Nat := 10

/-- The needle: the ordered context+removed line texts a hunk expects to
find in the original. -/
def needleOf (h : Hunk) : List Line :=
  h.lines.filterMap (fun tl => if tl.tag = LineTag.added then none else some tl.text)

/-- The replacement: the ordered context+added line texts emitted at the
resolved position. -/
def replacementOf (h : Hunk) : List Line :=
  h.lines.filterMap (fun tl => if tl.tag = LineTag.removed then none else some tl.text)

/-- Number of added lines of a hunk. -/
def addedCount (h : Hunk) : Nat :=
  (h.lines.filter (fun tl => tl.tag = LineTag.added)).length

/-- Number of removed lines of a hunk. -/
def removedCount (h : Hunk) : Nat :=
  (h.lines.filter (fun tl => tl.tag = LineTag.removed)).length

/-- Net line-count delta a hunk introduces: added minus removed. -/
def hunkDelta (h : Hunk) : Int :=
  (addedCount h : Int) - (removedCount h : Int)

/-- Modelled from the spec: structural validity checked at apply time; a
negative count, or a count exceeding the declared line list length, is
structurally impossible and fatal. -/
def hunkValid (h : Hunk) : Bool :=
  0 ≤ h.sourceCount ∧ 0 ≤ h.targetCount ∧
    h.sourceCount ≤ (h.lines.length : Int) ∧ h.targetCount ≤ (h.lines.length : Int)

/-- Leading and trailing whitespace stripped from a line. -/
def trimLine (l : Line) : Line :=
  ((l.dropWhile Char.isWhitespace).reverse.dropWhile Char.isWhitespace).reverse

/-- Relaxed per-line equality: equal up to leading/trailing whitespace. -/
def relaxedEq (a b : Line) : Bool := trimLine a = trimLine b

/-- Relaxed equality of two line lists, element by element. -/
def relaxedListEq : List Line → List Line → Bool
  | [], [] => true
  | a :: as, b :: bs => relaxedEq a b && relaxedListEq as bs
  | _, _ => false

/-- Try one candidate start index (an integer, possibly out of range): it
must be non-negative, within the window's lower bound, leave room for the
needle, and match the needle under relaxed equality. -/
def tryCandidate (lines : List Line) (minIdx : Nat) (needle : List Line)
    (i : Int) : Option Nat :=
  if i < 0 then none
  else if minIdx ≤ i.toNat ∧ i.toNat + needle.length ≤ lines.length then
    if relaxedListEq needle ((lines.drop i.toNat).take needle.length) then
      some i.toNat
    else none
  else none

/-- Modelled from the spec: bounded fuzzy search, scanning outward from the
expected index at radii `k, k+1, ...` (backward candidate before forward at
each radius) until the fuel runs out. -/
def fuzzySearch (lines : List Line) (minIdx : Nat) (needle : List Line)
    (e : Int) : Nat → Nat → Option Nat
  | _, 0 => none
  | k, fuel + 1 =>
      let cand :=
        if k = 0 then tryCandidate lines minIdx needle e
        else
          match tryCandidate lines minIdx needle (e - (k : Int)) with
          | some n => some n
          | none => tryCandidate lines minIdx needle (e + (k : Int))
      match cand with
      | some n => some n
      | none => fuzzySearch lines minIdx needle e (k + 1) fuel

/-- Fuzzy search over the whole window: offsets `0, -1, +1, …` up to
`maxFuzzyOffset`. -/
def fuzzyFind (lines : List Line) (minIdx : Nat) (needle : List Line)
    (e : Int) : Option Nat :=
  fuzzySearch lines minIdx needle e 0 (maxFuzzyOffset + 1)

/-- Exact verbatim match attempt at the expected index (also bounded below
by the window start). -/
def exactAt (lines : List Line) (minIdx : Nat) (needle : List Line)
    (e : Int) : Option Nat :=
  if e < 0 then none
  else if minIdx ≤ e.toNat ∧ e.toNat + needle.length ≤ lines.length ∧
      (lines.drop e.toNat).take needle.length = needle then
    some e.toNat
  else none

/-- Modelled from the spec: resolve one hunk: exact match at the expected
index first, else bounded fuzzy search; `none` when the window is
exhausted. -/
def resolveHunk (lines : List Line) (minIdx : Nat) (needle : List Line)
    (e : Int) : Option (Nat × PatchStatus) :=
  match exactAt lines minIdx needle e with
  | some n => some (n, .applied_exact)
  | none =>
      match fuzzyFind lines minIdx needle e with
      | some n => some (n, .applied_fuzzy)
      | none => none

/-- Decimal rendering of an integer. -/
def renderInt (e : Int) : Line :=
  if e < 0 then '-' :: renderNat e.natAbs else renderNat e.toNat

/-- Detail message for a failed hunk, describing the search window. -/
def failDetail (e : Int) (w : Nat) : Line :=
  ("context not found within search window around expected index ").data ++
    renderInt e ++ (" (radius ").data ++ renderNat w ++ (")").data

/-- Accumulator state threaded through the hunk-processing fold: current
line buffer, running net delta, window lower bound (previous hunk's
resolved end), and the results so far. -/
structure ApplyState where
  lines : List Line
  delta : Int
  minIdx : Nat
  results : List PatchResult
deriving DecidableEq

/-- Modelled from the spec: the expected 0-based start index of a hunk:
`source_start - 1` adjusted by the net delta of previously applied hunks. -/
def expectedIndex (h : Hunk) (delta : Int) : Int :=
  h.sourceStart - 1 + delta

/-- Modelled from the spec: apply one hunk to the running state.  A
structurally invalid hunk aborts fatally; an unresolvable hunk records a
`failed` result and leaves buffer, delta and window untouched; a resolved
hunk splices its replacement in place of the needle and advances delta and
window. -/
def applyHunk (st : ApplyState) (h : Hunk) : Except InvalidHunkError ApplyState :=
  if hunkValid h then
    match resolveHunk st.lines st.minIdx (needleOf h) (expectedIndex h st.delta) with
    | some (n, status) =>
        .ok
          { lines := st.lines.take n ++ replacementOf h ++
              st.lines.drop (n + (needleOf h).length)
            delta := st.delta + hunkDelta h
            minIdx := n + (replacementOf h).length
            results := st.results ++ [⟨status, some n, none⟩] }
    | none =>
        .ok { st with
              results := st.results ++
                [⟨.failed, none,
                  some (failDetail (expectedIndex h st.delta) maxFuzzyOffset)⟩] }
  else .error ⟨"structurally invalid hunk"⟩

/-- The 0-based resolved lines of the results that did apply, in result
order (failed results record no line). -/
def appliedLines (rs : List PatchResult) : List Nat :=
  rs.filterMap (fun r => r.resolvedLine)

/-- The hunk-processing fold. -/
def applyGo (st : ApplyState) : List Hunk → Except InvalidHunkError ApplyState
  | [] => .ok st
  | h :: hs =>
      match applyHunk st h with
      | .ok st2 => applyGo st2 hs
      | .error e => .error e

/-- Modelled from the spec: the patch applier,
`apply(original_lines, hunks) -> PatchOutcome`. -/
def apply (orig : List Line) (hunks : List Hunk) :
    Except InvalidHunkError PatchOutcome :=
  match applyGo ⟨orig, 0, 0, []⟩ hunks with
  | .ok st => .ok ⟨st.lines, st.results⟩
  | .error e => .error e

/-! ### A minimal correct diff generator

The specification excludes diff *generation* from the core (§1 Non-goals);
the round-trip property `apply(A, parse(diff(A,B))) = B` nevertheless
quantifies over a generated diff.  We model the simplest correct unified
diff of `A` against `B`: a single hunk replacing the whole file. -/

/-- Modelled from the spec: a minimal unified diff of `A` against `B`: one
hunk `@@ -1,|A| +1,|B| @@` removing every line of `A` and adding every line
of `B`. -/
def diffGen (A B : List Line) : List Line :=
  (("@@ -1,").data ++ renderNat A.length ++ (" +1,").data ++
      renderNat B.length ++ (" @@").data)
    :: (A.map (fun l => '-' :: l) ++ B.map (fun l => '+' :: l))

/-- The hunk that `parse (diffGen A B)` yields. -/
def genHunk (A B : List Line) : Hunk :=
  ⟨1, (A.length : Int), 1, (B.length : Int),
    A.map (fun l => ⟨LineTag.removed, l⟩) ++ B.map (fun l => ⟨LineTag.added, l⟩)⟩

end UnifiedDiff


namespace Frontend

/-- A configured model entry (`Model` in `lib/types.ts`): `comingSoon` and
`apiKeyUrl` are optional fields. -/
structure Model where
  id : String
  name : String
  company : String
  comingSoon : Option Bool
  apiKeyUrl : Option String
deriving DecidableEq

/-- Truth of the TypeScript condition `model.comingSoon` (an absent optional
boolean is falsy). -/
def isComingSoon (m : Model) : Bool := m.comingSoon.getD false

/-- A combobox item as consumed by the onboarding modal
(`ComboboxItem & \x7b company \x7d`). -/
structure OnbComboboxItem where
  value : String
  label : String
  company : String
deriving DecidableEq

/-- The onboarding modal's item for one model:
`\x7b value: model.id, label: model.name, company: model.company \x7d`. -/
def onboardingItem (m : Model) : OnbComboboxItem :=
  ⟨m.id, m.name, m.company⟩

/-- `comboboxItems` of `onboarding-modal.tsx`:
`models.filter(model => !model.comingSoon).map(...)`. -/
def onboardingComboboxItems (models : List Model) : List OnbComboboxItem :=
  (models.filter (fun m => !isComingSoon m)).map onboardingItem

/-- A combobox item as consumed by the settings modal
(`Model & ComboboxItem & \x7b company \x7d`): the spread model plus
`value`/`label`. -/
structure SetComboboxItem extends Model where
  value : String
  label : String
deriving DecidableEq

/-- The settings modal's item for one model:
`\x7b ...model, value: model.id, label: model.name, company: model.company \x7d`. -/
def settingsItem (m : Model) : SetComboboxItem :=
  { m with value := m.id, label := m.name }

/-- `comboboxItems` of `settings-modal.tsx`:
`models.filter(model => !model.comingSoon).map(...)`. -/
def settingsComboboxItems (models : List Model) : List SetComboboxItem :=
  (models.filter (fun m => !isComingSoon m)).map settingsItem

/-- The onboarding modal's state relevant to validation: the `folderPath`,
`apiKey` and `isKeySaved` React state values. -/
structure OnboardingState where
  folderPath : String
  apiKey : String
  isKeySaved : Bool
deriving DecidableEq

/-- `validateFields` of `onboarding-modal.tsx`:
`(apiKey !== '' || isKeySaved) && folderPath !== ''`. -/
def validateFields (st : OnboardingState) : Bool :=
  (st.apiKey != "" || st.isKeySaved) && st.folderPath != ""

/-- The `disabled` prop passed to `StartChatButton`: `!validateFields()`. -/
def startChatButtonDisabled (st : OnboardingState) : Bool :=
  !validateFields st

end Frontend

namespace UnifiedDiff

/-- C2: end-to-end example: for the original five lines `a b c d e` and the
single parsed hunk `@@ -2,2 +2,3 @@` with lines ` b`, `-c`, `+c2`, `+c3`,
`apply` returns `a b c2 c3 d e` with exactly one `PatchResult`, of status
`applied_exact` and `resolved_line = 1`. -/
theorem end_to_end_example :
    parse [("@@ -2,2 +2,3 @@").data, (" b").data, ("-c").data,
        ("+c2").data, ("+c3").data] =
      Except.ok [⟨2, 2, 2, 3,
        [⟨LineTag.context, ("b").data⟩, ⟨LineTag.removed, ("c").data⟩,
         ⟨LineTag.added, ("c2").data⟩, ⟨LineTag.added, ("c3").data⟩]⟩] ∧
    apply [("a").data, ("b").data, ("c").data, ("d").data, ("e").data]
        [⟨2, 2, 2, 3,
          [⟨LineTag.context, ("b").data⟩, ⟨LineTag.removed, ("c").data⟩,
           ⟨LineTag.added, ("c2").data⟩, ⟨LineTag.added, ("c3").data⟩]⟩] =
      Except.ok ⟨[("a").data, ("b").data, ("c2").data, ("c3").data,
          ("d").data, ("e").data],
        [⟨PatchStatus.applied_exact, some 1, none⟩]⟩ :=
  ⟨rfl, rfl⟩

/-! ### Characterizing lemmas for `applyHunk` and the fold -/

theorem applyHunk_of_invalid (st : ApplyState) (h : Hunk)
    (hv : hunkValid h = false) :
    applyHunk st h = .error ⟨"structurally invalid hunk"⟩ := by
  simp [applyHunk, hv]

theorem applyHunk_of_resolved (st : ApplyState) (h : Hunk) (n : Nat)
    (s : PatchStatus) (hv : hunkValid h = true)
    (hr : resolveHunk st.lines st.minIdx (needleOf h) (expectedIndex h st.delta) =
      some (n, s)) :
    applyHunk st h = .ok
      { lines := st.lines.take n ++ replacementOf h ++
          st.lines.drop (n + (needleOf h).length)
        delta := st.delta + hunkDelta h
        minIdx := n + (replacementOf h).length
        results := st.results ++ [⟨s, some n, none⟩] } := by
  simp [applyHunk, hv, hr]

theorem applyHunk_of_unresolved (st : ApplyState) (h : Hunk)
    (hv : hunkValid h = true)
    (hr : resolveHunk st.lines st.minIdx (needleOf h) (expectedIndex h st.delta) =
      none) :
    applyHunk st h = .ok
      { st with
        results := st.results ++
          [⟨.failed, none,
            some (failDetail (expectedIndex h st.delta) maxFuzzyOffset)⟩] } := by
  simp [applyHunk, hv, hr]

theorem applyHunk_isOk (st : ApplyState) (h : Hunk) (hv : hunkValid h = true) :
    ∃ st2, applyHunk st h = .ok st2 := by
  rcases hr : resolveHunk st.lines st.minIdx (needleOf h) (expectedIndex h st.delta)
    with _ | ⟨n, s⟩
  · exact ⟨_, applyHunk_of_unresolved st h hv hr⟩
  · exact ⟨_, applyHunk_of_resolved st h n s hv hr⟩

theorem applyGo_error_iff (hunks : List Hunk) : ∀ st : ApplyState,
    (∃ e, applyGo st hunks = .error e) ↔ ∃ h, h ∈ hunks ∧ hunkValid h = false := by
  induction hunks with
  | nil => intro st; simp [applyGo]
  | cons h hs ih =>
    intro st
    by_cases hv : hunkValid h = true
    · obtain ⟨st2, h2⟩ := applyHunk_isOk st h hv
      simp only [applyGo, h2]
      rw [ih st2]
      constructor
      · rintro ⟨x, hx, hxv⟩
        exact ⟨x, List.mem_cons_of_mem _ hx, hxv⟩
      · rintro ⟨x, hx, hxv⟩
        rcases List.mem_cons.1 hx with rfl | hx2
        · rw [hv] at hxv; cases hxv
        · exact ⟨x, hx2, hxv⟩
    · have hv2 : hunkValid h = false := by simpa using hv
      simp only [applyGo, applyHunk_of_invalid st h hv2]
      constructor
      · intro _
        exact ⟨h, List.mem_cons_self h hs, hv2⟩
      · intro _
        exact ⟨_, rfl⟩

/-- C3: `apply` never aborts for mismatched content and aborts with
`InvalidHunkError` exactly when some hunk is structurally invalid (a
negative count, or a count exceeding the declared line list's length); a
valid hunk whose needle resolves nowhere merely appends a `failed` result
to the outcome. -/
theorem apply_invalid_hunk_spec (orig : List Line) (hunks : List Hunk) :
    ((∃ e, apply orig hunks = .error e) ↔
      ∃ h, h ∈ hunks ∧ hunkValid h = false) ∧
    (∀ st : ApplyState, ∀ h : Hunk, hunkValid h = true →
      resolveHunk st.lines st.minIdx (needleOf h) (expectedIndex h st.delta) =
        none →
      applyHunk st h = .ok
        { st with
          results := st.results ++
            [⟨.failed, none,
              some (failDetail (expectedIndex h st.delta) maxFuzzyOffset)⟩] }) := by
  constructor
  · rw [← applyGo_error_iff hunks ⟨orig, 0, 0, []⟩]
    unfold apply
    cases hg : applyGo ⟨orig, 0, 0, []⟩ hunks <;> simp
  · intro st h hv hr
    exact applyHunk_of_unresolved st h hv hr

/-- Witness for C3 at a concrete state and hunk whose needle `z` occurs
nowhere in the one-line file `a`. -/
theorem apply_invalid_hunk_spec_witness :
    hunkValid ⟨1, 1, 1, 1, [⟨LineTag.removed, ['z']⟩, ⟨LineTag.added, ['y']⟩]⟩ = true ∧
    resolveHunk [['a']] 0
        (needleOf ⟨1, 1, 1, 1, [⟨LineTag.removed, ['z']⟩, ⟨LineTag.added, ['y']⟩]⟩)
        (expectedIndex ⟨1, 1, 1, 1, [⟨LineTag.removed, ['z']⟩, ⟨LineTag.added, ['y']⟩]⟩ 0) =
      none ∧
    applyHunk ⟨[['a']], 0, 0, []⟩
        ⟨1, 1, 1, 1, [⟨LineTag.removed, ['z']⟩, ⟨LineTag.added, ['y']⟩]⟩ =
      .ok ⟨[['a']], 0, 0,
        [⟨PatchStatus.failed, none, some (failDetail 0 maxFuzzyOffset)⟩]⟩ :=
  ⟨rfl, rfl,
    (apply_invalid_hunk_spec [] []).2 ⟨[['a']], 0, 0, []⟩
      ⟨1, 1, 1, 1, [⟨LineTag.removed, ['z']⟩, ⟨LineTag.added, ['y']⟩]⟩ rfl rfl⟩

theorem resolveHunk_cases (lines : List Line) (minIdx : Nat)
    (needle : List Line) (e : Int) (n : Nat) (s : PatchStatus)
    (hr : resolveHunk lines minIdx needle e = some (n, s)) :
    (s = PatchStatus.applied_exact ∧ exactAt lines minIdx needle e = some n) ∨
    (s = PatchStatus.applied_fuzzy ∧ exactAt lines minIdx needle e = none ∧
      fuzzyFind lines minIdx needle e = some n) := by
  unfold resolveHunk at hr
  cases he : exactAt lines minIdx needle e with
  | some m =>
      rw [he] at hr
      cases hr
      exact Or.inl ⟨rfl, rfl⟩
  | none =>
      rw [he] at hr
      cases hf : fuzzyFind lines minIdx needle e with
      | some m =>
          rw [hf] at hr
          cases hr
          exact Or.inr ⟨rfl, rfl, rfl⟩
      | none => rw [hf] at hr; cases hr

theorem resolveHunk_not_failed (lines : List Line) (minIdx : Nat)
    (needle : List Line) (e : Int) (n : Nat) (s : PatchStatus)
    (hr : resolveHunk lines minIdx needle e = some (n, s)) :
    s ≠ PatchStatus.failed := by
  rcases resolveHunk_cases lines minIdx needle e n s hr with ⟨rfl, _⟩ | ⟨rfl, _, _⟩ <;>
    intro hc <;> cases hc

/-- C6: when a valid hunk's needle matches nowhere within the search window,
its result is `failed` with a non-empty detail, the buffer is left entirely
unchanged, and the net-delta baseline (and window start) for subsequent
hunks is unchanged, as if the hunk contributed zero delta. -/
theorem window_exhaustion_spec (st : ApplyState) (h : Hunk)
    (hv : hunkValid h = true)
    (hr : resolveHunk st.lines st.minIdx (needleOf h) (expectedIndex h st.delta) =
      none) :
    ∃ d : Line, d ≠ [] ∧
      applyHunk st h = .ok ⟨st.lines, st.delta, st.minIdx,
        st.results ++ [⟨PatchStatus.failed, none, some d⟩]⟩ := by
  refine ⟨failDetail (expectedIndex h st.delta) maxFuzzyOffset, ?_, ?_⟩
  · intro hc
    rw [failDetail] at hc
    simp only [List.append_eq_nil] at hc
    exact absurd hc.1.1.1.1 (by decide)
  · exact applyHunk_of_unresolved st h hv hr

/-- Witness for C6: the needle `q` occurs nowhere in the two-line file
`a b`, so the hunk fails and leaves the state unchanged. -/
theorem window_exhaustion_spec_witness :
    hunkValid ⟨2, 1, 2, 1, [⟨LineTag.removed, ['q']⟩, ⟨LineTag.added, ['r']⟩]⟩ = true ∧
    resolveHunk [['a'], ['b']] 0
        (needleOf ⟨2, 1, 2, 1, [⟨LineTag.removed, ['q']⟩, ⟨LineTag.added, ['r']⟩]⟩)
        (expectedIndex ⟨2, 1, 2, 1, [⟨LineTag.removed, ['q']⟩, ⟨LineTag.added, ['r']⟩]⟩ 0) =
      none ∧
    ∃ d : Line, d ≠ [] ∧
      applyHunk ⟨[['a'], ['b']], 0, 0, []⟩
          ⟨2, 1, 2, 1, [⟨LineTag.removed, ['q']⟩, ⟨LineTag.added, ['r']⟩]⟩ =
        .ok ⟨[['a'], ['b']], 0, 0, [⟨PatchStatus.failed, none, some d⟩]⟩ :=
  ⟨rfl, rfl,
    window_exhaustion_spec ⟨[['a'], ['b']], 0, 0, []⟩
      ⟨2, 1, 2, 1, [⟨LineTag.removed, ['q']⟩, ⟨LineTag.added, ['r']⟩]⟩ rfl rfl⟩

/-- C5: the expected 0-based start index of a hunk is `source_start - 1`
plus the accumulated delta; a hunk that applies advances the delta by its
added-minus-removed count while a failed hunk contributes zero; and in a
concrete two-hunk diff whose first hunk adds 3 lines and removes none, the
second hunk (header start 5, literal 0-based index 4) resolves at
`4 + 3 = 7`, not at its literal header position. -/
theorem cumulative_offset_spec :
    (∀ h : Hunk, ∀ delta : Int,
      expectedIndex h delta = h.sourceStart - 1 + delta) ∧
    (∀ st st2 : ApplyState, ∀ h : Hunk, ∀ r : PatchResult,
      applyHunk st h = .ok st2 → st2.results = st.results ++ [r] →
      st2.delta = st.delta +
        (if r.status = PatchStatus.failed then 0 else hunkDelta h)) ∧
    apply [("l1").data, ("l2").data, ("l3").data, ("l4").data, ("l5").data,
        ("l6").data]
      [⟨2, 1, 2, 4, [⟨LineTag.context, ("l2").data⟩, ⟨LineTag.added, ("a").data⟩,
          ⟨LineTag.added, ("b").data⟩, ⟨LineTag.added, ("c").data⟩]⟩,
       ⟨5, 1, 8, 1, [⟨LineTag.removed, ("l5").data⟩,
          ⟨LineTag.added, ("L5").data⟩]⟩] =
      .ok ⟨[("l1").data, ("l2").data, ("a").data, ("b").data, ("c").data,
          ("l3").data, ("l4").data, ("L5").data, ("l6").data],
        [⟨PatchStatus.applied_exact, some 1, none⟩,
         ⟨PatchStatus.applied_exact, some 7, none⟩]⟩ := by
  refine ⟨fun h delta => rfl, ?_, rfl⟩
  intro st st2 h r hok hres
  by_cases hv : hunkValid h = true
  · rcases hrc : resolveHunk st.lines st.minIdx (needleOf h) (expectedIndex h st.delta)
      with _ | ⟨n, s⟩
    · rw [applyHunk_of_unresolved st h hv hrc] at hok
      cases hok
      have hr2 := List.append_cancel_left hres
      cases hr2
      simp
    · rw [applyHunk_of_resolved st h n s hv hrc] at hok
      cases hok
      have hr2 := List.append_cancel_left hres
      cases hr2
      have hs := resolveHunk_not_failed st.lines st.minIdx (needleOf h)
        (expectedIndex h st.delta) n s hrc
      simp [hs]
  · rw [applyHunk_of_invalid st h (by simpa using hv)] at hok
    cases hok

/-- Witness for C5's delta-update clause at a concrete hunk adding one net
line. -/
theorem cumulative_offset_spec_witness :
    applyHunk ⟨[['a']], 0, 0, []⟩
        ⟨1, 1, 1, 2, [⟨LineTag.removed, ['a']⟩, ⟨LineTag.added, ['b']⟩,
          ⟨LineTag.added, ['c']⟩]⟩ =
      .ok ⟨[['b'], ['c']], 1, 2, [⟨PatchStatus.applied_exact, some 0, none⟩]⟩ ∧
    (1 : Int) = 0 +
      (if (⟨PatchStatus.applied_exact, some 0, none⟩ : PatchResult).status =
          PatchStatus.failed then 0
       else hunkDelta ⟨1, 1, 1, 2, [⟨LineTag.removed, ['a']⟩, ⟨LineTag.added, ['b']⟩,
          ⟨LineTag.added, ['c']⟩]⟩) :=
  ⟨rfl,
    cumulative_offset_spec.2.1 ⟨[['a']], 0, 0, []⟩
      ⟨[['b'], ['c']], 1, 2, [⟨PatchStatus.applied_exact, some 0, none⟩]⟩
      ⟨1, 1, 1, 2, [⟨LineTag.removed, ['a']⟩, ⟨LineTag.added, ['b']⟩,
        ⟨LineTag.added, ['c']⟩]⟩
      ⟨PatchStatus.applied_exact, some 0, none⟩ rfl rfl⟩

/-! ### The fuzzy search: characterization of the candidate order -/

theorem tryCandidate_some (lines : List Line) (minIdx : Nat)
    (needle : List Line) (i : Int) (n : Nat)
    (ht : tryCandidate lines minIdx needle i = some n) :
    (n : Int) = i ∧ minIdx ≤ n ∧ n + needle.length ≤ lines.length ∧
      relaxedListEq needle ((lines.drop n).take needle.length) = true := by
  unfold tryCandidate at ht
  by_cases hneg : i < 0
  · rw [if_pos hneg] at ht; cases ht
  · rw [if_neg hneg] at ht
    by_cases hcond : minIdx ≤ i.toNat ∧ i.toNat + needle.length ≤ lines.length
    · rw [if_pos hcond] at ht
      by_cases hrel :
          relaxedListEq needle ((lines.drop i.toNat).take needle.length) = true
      · rw [if_pos hrel] at ht
        cases ht
        exact ⟨Int.toNat_of_nonneg (not_lt.mp hneg), hcond.1, hcond.2, hrel⟩
      · rw [if_neg hrel] at ht; cases ht
    · rw [if_neg hcond] at ht; cases ht

theorem tryCandidate_congr (lines : List Line) (minIdx : Nat)
    (needle : List Line) (i : Int) (m : Nat) (hm : (m : Int) = i) :
    tryCandidate lines minIdx needle (m : Int) = tryCandidate lines minIdx needle i := by
  rw [hm]

theorem fuzzySearch_some (lines : List Line) (minIdx : Nat)
    (needle : List Line) (e : Int) :
    ∀ fuel k n,
      fuzzySearch lines minIdx needle e k fuel = some n →
      (∀ m : Nat, tryCandidate lines minIdx needle (m : Int) = some m →
        ((m : Int) - e).natAbs < k → False) →
      tryCandidate lines minIdx needle (n : Int) = some n ∧
      ((n : Int) - e).natAbs < k + fuel ∧
      (∀ m : Nat, tryCandidate lines minIdx needle (m : Int) = some m →
        ((n : Int) - e).natAbs < ((m : Int) - e).natAbs ∨
        (((n : Int) - e).natAbs = ((m : Int) - e).natAbs ∧ n ≤ m)) := by
  intro fuel
  induction fuel with
  | zero => intro k n h _; cases h
  | succ fuel ih =>
    intro k n h hmin
    by_cases hk : k = 0
    · subst hk
      rw [fuzzySearch, if_pos rfl] at h
      cases hc : tryCandidate lines minIdx needle e with
      | some n0 =>
          rw [hc] at h
          cases h
          obtain ⟨hni, _, _, _⟩ := tryCandidate_some lines minIdx needle e n hc
          have htn : tryCandidate lines minIdx needle (n : Int) = some n := by
            rw [tryCandidate_congr lines minIdx needle e n hni, hc]
          refine ⟨htn, by omega, ?_⟩
          intro m hm
          by_cases hz : ((m : Int) - e).natAbs = ((n : Int) - e).natAbs
          · right
            refine ⟨hz.symm, ?_⟩
            have : (m : Int) = e := by omega
            have : (m : Int) = (n : Int) := by omega
            omega
          · left; omega
      | none =>
          rw [hc] at h
          have hmin1 : ∀ m : Nat,
              tryCandidate lines minIdx needle (m : Int) = some m →
              ((m : Int) - e).natAbs < 1 → False := by
            intro m hm hlt
            have hme : (m : Int) = e := by omega
            rw [tryCandidate_congr lines minIdx needle e m hme, hc] at hm
            cases hm
          obtain ⟨h1, h2, h3⟩ := ih 1 n h hmin1
          exact ⟨h1, by omega, h3⟩
    · rw [fuzzySearch, if_neg hk] at h
      cases hc1 : tryCandidate lines minIdx needle (e - (k : Int)) with
      | some n0 =>
          rw [hc1] at h
          cases h
          obtain ⟨hni, _, _, _⟩ :=
            tryCandidate_some lines minIdx needle (e - (k : Int)) n hc1
          have htn : tryCandidate lines minIdx needle (n : Int) = some n := by
            rw [tryCandidate_congr lines minIdx needle (e - (k : Int)) n hni, hc1]
          have habs : ((n : Int) - e).natAbs = k := by omega
          refine ⟨htn, by omega, ?_⟩
          intro m hm
          have hge : ¬ ((m : Int) - e).natAbs < k := fun hlt => hmin m hm hlt
          by_cases hz : ((m : Int) - e).natAbs = k
          · right
            refine ⟨by omega, ?_⟩
            have : (m : Int) = e - (k : Int) ∨ (m : Int) = e + (k : Int) := by omega
            rcases this with hb | hf
            · have : (m : Int) = (n : Int) := by omega
              omega
            · omega
          · left; omega
      | none =>
          rw [hc1] at h
          cases hc2 : tryCandidate lines minIdx needle (e + (k : Int)) with
          | some n0 =>
              rw [hc2] at h
              cases h
              obtain ⟨hni, _, _, _⟩ :=
                tryCandidate_some lines minIdx needle (e + (k : Int)) n hc2
              have htn : tryCandidate lines minIdx needle (n : Int) = some n := by
                rw [tryCandidate_congr lines minIdx needle (e + (k : Int)) n hni, hc2]
              have habs : ((n : Int) - e).natAbs = k := by omega
              refine ⟨htn, by omega, ?_⟩
              intro m hm
              have hge : ¬ ((m : Int) - e).natAbs < k := fun hlt => hmin m hm hlt
              by_cases hz : ((m : Int) - e).natAbs = k
              · right
                refine ⟨by omega, ?_⟩
                have : (m : Int) = e - (k : Int) ∨ (m : Int) = e + (k : Int) := by
                  omega
                rcases this with hb | hf
                · rw [tryCandidate_congr lines minIdx needle (e - (k : Int)) m hb,
                    hc1] at hm
                  cases hm
                · have : (m : Int) = (n : Int) := by omega
                  omega
              · left; omega
          | none =>
              rw [hc2] at h
              have hmin2 : ∀ m : Nat,
                  tryCandidate lines minIdx needle (m : Int) = some m →
                  ((m : Int) - e).natAbs < k + 1 → False := by
                intro m hm hlt
                by_cases hz : ((m : Int) - e).natAbs = k
                · have : (m : Int) = e - (k : Int) ∨ (m : Int) = e + (k : Int) := by
                    omega
                  rcases this with hb | hf
                  · rw [tryCandidate_congr lines minIdx needle (e - (k : Int)) m hb,
                      hc1] at hm
                    cases hm
                  · rw [tryCandidate_congr lines minIdx needle (e + (k : Int)) m hf,
                      hc2] at hm
                    cases hm
                · exact hmin m hm (by omega)
              obtain ⟨h1, h2, h3⟩ := ih (k + 1) n h hmin2
              exact ⟨h1, by omega, h3⟩

theorem fuzzySearch_none (lines : List Line) (minIdx : Nat)
    (needle : List Line) (e : Int) :
    ∀ fuel k,
      fuzzySearch lines minIdx needle e k fuel = none →
      ∀ m : Nat, tryCandidate lines minIdx needle (m : Int) = some m →
        ((m : Int) - e).natAbs < k + fuel → ((m : Int) - e).natAbs < k := by
  intro fuel
  induction fuel with
  | zero => intro k _ m _ hlt; omega
  | succ fuel ih =>
    intro k h m hm hlt
    by_cases hk : k = 0
    · subst hk
      rw [fuzzySearch, if_pos rfl] at h
      cases hc : tryCandidate lines minIdx needle e with
      | some n0 => rw [hc] at h; cases h
      | none =>
          rw [hc] at h
          have := ih 1 h m hm (by omega)
          have hz : ((m : Int) - e).natAbs = 0 := by omega
          have hme : (m : Int) = e := by omega
          rw [tryCandidate_congr lines minIdx needle e m hme, hc] at hm
          cases hm
    · rw [fuzzySearch, if_neg hk] at h
      cases hc1 : tryCandidate lines minIdx needle (e - (k : Int)) with
      | some n0 => rw [hc1] at h; cases h
      | none =>
          rw [hc1] at h
          cases hc2 : tryCandidate lines minIdx needle (e + (k : Int)) with
          | some n0 => rw [hc2] at h; cases h
          | none =>
              rw [hc2] at h
              have hlt1 := ih (k + 1) h m hm (by omega)
              by_cases hz : ((m : Int) - e).natAbs = k
              · have : (m : Int) = e - (k : Int) ∨ (m : Int) = e + (k : Int) := by
                  omega
                rcases this with hb | hf
                · rw [tryCandidate_congr lines minIdx needle (e - (k : Int)) m hb,
                    hc1] at hm
                  cases hm
                · rw [tryCandidate_congr lines minIdx needle (e + (k : Int)) m hf,
                    hc2] at hm
                  cases hm
              · omega

theorem resolveHunk_of_fuzzy (lines : List Line) (minIdx : Nat)
    (needle : List Line) (e : Int) (n : Nat)
    (he : exactAt lines minIdx needle e = none)
    (hf : fuzzyFind lines minIdx needle e = some n) :
    resolveHunk lines minIdx needle e = some (n, PatchStatus.applied_fuzzy) := by
  unfold resolveHunk
  rw [he, hf]

/-- C7: when the exact match fails, the fuzzy search tries candidates
outward from the expected index `e` in order of increasing absolute offset
with the backward candidate first at ties: a returned candidate `n` is a
valid relaxed match within `maxFuzzyOffset` of `e`, and every other valid
relaxed-matching candidate `m` is either strictly farther from `e` or at
the same distance but forward of `n`; an exhausted search means every
matching candidate lies outside the window; and a fuzzy resolution is
recorded with status `applied_fuzzy`. -/
theorem fuzzy_search_spec :
    (∀ lines : List Line, ∀ minIdx : Nat, ∀ needle : List Line, ∀ e : Int,
      ∀ n : Nat,
      fuzzyFind lines minIdx needle e = some n →
        tryCandidate lines minIdx needle (n : Int) = some n ∧
        relaxedListEq needle ((lines.drop n).take needle.length) = true ∧
        ((n : Int) - e).natAbs ≤ maxFuzzyOffset ∧
        (∀ m : Nat, tryCandidate lines minIdx needle (m : Int) = some m →
          ((n : Int) - e).natAbs < ((m : Int) - e).natAbs ∨
          (((n : Int) - e).natAbs = ((m : Int) - e).natAbs ∧ n ≤ m))) ∧
    (∀ lines : List Line, ∀ minIdx : Nat, ∀ needle : List Line, ∀ e : Int,
      fuzzyFind lines minIdx needle e = none →
      ∀ m : Nat, tryCandidate lines minIdx needle (m : Int) = some m →
        maxFuzzyOffset < ((m : Int) - e).natAbs) ∧
    (∀ st : ApplyState, ∀ h : Hunk, ∀ n : Nat, hunkValid h = true →
      exactAt st.lines st.minIdx (needleOf h) (expectedIndex h st.delta) = none →
      fuzzyFind st.lines st.minIdx (needleOf h) (expectedIndex h st.delta) =
        some n →
      applyHunk st h = .ok
        { lines := st.lines.take n ++ replacementOf h ++
            st.lines.drop (n + (needleOf h).length)
          delta := st.delta + hunkDelta h
          minIdx := n + (replacementOf h).length
          results := st.results ++
            [⟨PatchStatus.applied_fuzzy, some n, none⟩] }) := by
  refine ⟨?_, ?_, ?_⟩
  · intro lines minIdx needle e n hf
    obtain ⟨h1, h2, h3⟩ :=
      fuzzySearch_some lines minIdx needle e (maxFuzzyOffset + 1) 0 n hf
        (fun m _ hlt => by omega)
    obtain ⟨_, _, _, hrel⟩ := tryCandidate_some lines minIdx needle (n : Int) n h1
    exact ⟨h1, hrel, by omega, h3⟩
  · intro lines minIdx needle e hf m hm
    have := fuzzySearch_none lines minIdx needle e (maxFuzzyOffset + 1) 0 hf m hm
    by_contra hc
    have := this (by omega)
    omega
  · intro st h n hv he hf
    exact applyHunk_of_resolved st h n PatchStatus.applied_fuzzy hv
      (resolveHunk_of_fuzzy st.lines st.minIdx (needleOf h)
        (expectedIndex h st.delta) n he hf)

/-- Witness for C7: in the file `a b (spaces)c(spaces)` with needle `c` and
expected index 0, the fuzzy search resolves at index 2. -/
theorem fuzzy_search_spec_witness :
    fuzzyFind [['a'], ['b'], [' ', 'c', ' ']] 0 [['c']] 0 = some 2 ∧
    (tryCandidate [['a'], ['b'], [' ', 'c', ' ']] 0 [['c']] ((2 : Nat) : Int) =
        some 2 ∧
      relaxedListEq [['c']]
          (([['a'], ['b'], [' ', 'c', ' ']].drop 2).take [['c']].length) = true ∧
      (((2 : Nat) : Int) - 0).natAbs ≤ maxFuzzyOffset ∧
      (∀ m : Nat,
        tryCandidate [['a'], ['b'], [' ', 'c', ' ']] 0 [['c']] ((m : Nat) : Int) =
          some m →
        (((2 : Nat) : Int) - 0).natAbs < ((m : Int) - 0).natAbs ∨
        ((((2 : Nat) : Int) - 0).natAbs = ((m : Int) - 0).natAbs ∧ 2 ≤ m))) :=
  ⟨rfl, fuzzy_search_spec.1 [['a'], ['b'], [' ', 'c', ' ']] 0 [['c']] 0 2 rfl⟩

/-! ### The parser: line classification and hunk assembly -/

theorem classifyLine_headerStart (rest : Line) :
    classifyLine ('@' :: '@' :: ' ' :: '-' :: rest) =
      (match parseHeader rest with
       | some (s, sc, t, tc) => ParsedLine.hunkHead s sc t tc
       | none => ParsedLine.badHead) := by
  simp [classifyLine, dropPre]

theorem classifyLine_space (x : Line) :
    classifyLine (' ' :: x) = ParsedLine.body LineTag.context x := by
  simp [classifyLine, dropPre]

theorem classifyLine_dash (x : Line) (hx : dropPre ['-', '-'] x = none) :
    classifyLine ('-' :: x) = ParsedLine.body LineTag.removed x := by
  simp [classifyLine, dropPre, hx]

theorem classifyLine_plus (x : Line) (hx : dropPre ['+', '+'] x = none) :
    classifyLine ('+' :: x) = ParsedLine.body LineTag.added x := by
  simp [classifyLine, dropPre, hx]

theorem classifyLine_dddash (rest : Line) :
    classifyLine ('-' :: '-' :: '-' :: rest) = ParsedLine.fileHeader := by
  simp [classifyLine, dropPre]

theorem classifyLine_ppplus (rest : Line) :
    classifyLine ('+' :: '+' :: '+' :: rest) = ParsedLine.fileHeader := by
  simp [classifyLine, dropPre]

theorem parseRange_default (l : Line) (n : Nat) (rest : Line)
    (hp : parseNat l = some (n, rest)) (hc : rest.head? ≠ some ',') :
    parseRange l = some (n, 1, rest) := by
  unfold parseRange
  rw [hp]
  cases rest with
  | nil => rfl
  | cons c rs =>
    by_cases hcc : c = ','
    · subst hcc; simp at hc
    · split
      · rename_i heq
        exact Option.noConfusion heq
      · rename_i s2 r3 heq
        injection heq with heq2
        injection heq2 with hn hr
        subst hn
        subst hr
        split
        · rename_i r2 heq3
          injection heq3 with h1 h2
          exact absurd h1 hcc
        · rfl

theorem parseInHunk_skip_dash (s sc t tc : Nat) (acc : List TaggedLine)
    (rest : Line) (ls : List Line) :
    parseInHunk s sc t tc acc (('-' :: '-' :: '-' :: rest) :: ls) =
      parseInHunk s sc t tc acc ls := by
  rw [parseInHunk, classifyLine_dddash]

theorem parseInHunk_skip_plus (s sc t tc : Nat) (acc : List TaggedLine)
    (rest : Line) (ls : List Line) :
    parseInHunk s sc t tc acc (('+' :: '+' :: '+' :: rest) :: ls) =
      parseInHunk s sc t tc acc ls := by
  rw [parseInHunk, classifyLine_ppplus]

theorem parseInHunk_context (s sc t tc : Nat) (acc : List TaggedLine)
    (x : Line) (ls : List Line) :
    parseInHunk s sc t tc acc ((' ' :: x) :: ls) =
      parseInHunk s sc t tc (⟨LineTag.context, x⟩ :: acc) ls := by
  rw [parseInHunk, classifyLine_space]

theorem parseInHunk_removed (s sc t tc : Nat) (acc : List TaggedLine)
    (x : Line) (ls : List Line) (hx : dropPre ['-', '-'] x = none) :
    parseInHunk s sc t tc acc (('-' :: x) :: ls) =
      parseInHunk s sc t tc (⟨LineTag.removed, x⟩ :: acc) ls := by
  rw [parseInHunk, classifyLine_dash x hx]

theorem parseInHunk_added (s sc t tc : Nat) (acc : List TaggedLine)
    (x : Line) (ls : List Line) (hx : dropPre ['+', '+'] x = none) :
    parseInHunk s sc t tc acc (('+' :: x) :: ls) =
      parseInHunk s sc t tc (⟨LineTag.added, x⟩ :: acc) ls := by
  rw [parseInHunk, classifyLine_plus x hx]

theorem parsePre_skip_dash (rest : Line) (ls : List Line) :
    parsePre (('-' :: '-' :: '-' :: rest) :: ls) = parsePre ls := by
  rw [parsePre, classifyLine_dddash]

theorem parsePre_skip_plus (rest : Line) (ls : List Line) :
    parsePre (('+' :: '+' :: '+' :: rest) :: ls) = parsePre ls := by
  rw [parsePre, classifyLine_ppplus]

theorem parsePre_header (s sc t tc : Nat) (rest : Line) (ls : List Line)
    (hh : parseHeader rest = some (s, sc, t, tc)) :
    parsePre (('@' :: '@' :: ' ' :: '-' :: rest) :: ls) =
      parseInHunk s sc t tc [] ls := by
  rw [parsePre, classifyLine_headerStart, hh]

/-- C8: parser behaviour: a line beginning `@@ -` is handled as a hunk
header (its four integers parsed, or the parse aborts), with an omitted
count defaulting to 1; `---`/`+++` file-header lines are skipped both
before and inside hunks and never contribute hunk content; and every other
line of a hunk body is tagged context, removed or added by its leading
` `/`-`/`+` character, which is stripped from the stored text. -/
theorem parser_behaviour_spec :
    (∀ rest : Line,
      classifyLine ('@' :: '@' :: ' ' :: '-' :: rest) =
        (match parseHeader rest with
         | some (s, sc, t, tc) => ParsedLine.hunkHead s sc t tc
         | none => ParsedLine.badHead)) ∧
    (∀ l : Line, ∀ n : Nat, ∀ rest : Line,
      parseNat l = some (n, rest) → rest.head? ≠ some ',' →
      parseRange l = some (n, 1, rest)) ∧
    (∀ s sc t tc : Nat, ∀ acc : List TaggedLine, ∀ rest : Line, ∀ ls : List Line,
      parseInHunk s sc t tc acc (('-' :: '-' :: '-' :: rest) :: ls) =
        parseInHunk s sc t tc acc ls ∧
      parseInHunk s sc t tc acc (('+' :: '+' :: '+' :: rest) :: ls) =
        parseInHunk s sc t tc acc ls ∧
      parsePre (('-' :: '-' :: '-' :: rest) :: ls) = parsePre ls ∧
      parsePre (('+' :: '+' :: '+' :: rest) :: ls) = parsePre ls) ∧
    (∀ s sc t tc : Nat, ∀ acc : List TaggedLine, ∀ x : Line, ∀ ls : List Line,
      parseInHunk s sc t tc acc ((' ' :: x) :: ls) =
        parseInHunk s sc t tc (⟨LineTag.context, x⟩ :: acc) ls ∧
      (dropPre ['-', '-'] x = none →
        parseInHunk s sc t tc acc (('-' :: x) :: ls) =
          parseInHunk s sc t tc (⟨LineTag.removed, x⟩ :: acc) ls) ∧
      (dropPre ['+', '+'] x = none →
        parseInHunk s sc t tc acc (('+' :: x) :: ls) =
          parseInHunk s sc t tc (⟨LineTag.added, x⟩ :: acc) ls)) ∧
    (∀ s sc t tc : Nat, ∀ rest : Line, ∀ ls : List Line,
      parseHeader rest = some (s, sc, t, tc) →
      parsePre (('@' :: '@' :: ' ' :: '-' :: rest) :: ls) =
        parseInHunk s sc t tc [] ls) := by
  refine ⟨classifyLine_headerStart, parseRange_default, ?_, ?_, parsePre_header⟩
  · intro s sc t tc acc rest ls
    exact ⟨parseInHunk_skip_dash s sc t tc acc rest ls,
      parseInHunk_skip_plus s sc t tc acc rest ls,
      parsePre_skip_dash rest ls, parsePre_skip_plus rest ls⟩
  · intro s sc t tc acc x ls
    exact ⟨parseInHunk_context s sc t tc acc x ls,
      parseInHunk_removed s sc t tc acc x ls,
      parseInHunk_added s sc t tc acc x ls⟩

/-- Witness for C8 at concrete lines: a count-less range `4 x` defaults to
count 1, a removed body line `-a` is stored stripped, and the header
`@@ -2,2 +2,3 @@` opens a hunk. -/
theorem parser_behaviour_spec_witness :
    parseNat ['4', ' ', 'x'] = some (4, [' ', 'x']) ∧
    ([' ', 'x'].head? ≠ some ',') ∧
    parseRange ['4', ' ', 'x'] = some (4, 1, [' ', 'x']) ∧
    dropPre ['-', '-'] ['a'] = none ∧
    parseInHunk 1 1 1 1 [] [['-', 'a']] =
      parseInHunk 1 1 1 1 [⟨LineTag.removed, ['a']⟩] [] ∧
    parseHeader ("2,2 +2,3 @@").data = some (2, 2, 2, 3) ∧
    parsePre [('@' :: '@' :: ' ' :: '-' :: ("2,2 +2,3 @@").data)] =
      parseInHunk 2 2 2 3 [] [] :=
  ⟨rfl, by decide, parser_behaviour_spec.2.1 ['4', ' ', 'x'] 4 [' ', 'x'] rfl
      (by decide),
    rfl, (parser_behaviour_spec.2.2.2.1 1 1 1 1 [] ['a'] []).2.1 rfl,
    rfl, parser_behaviour_spec.2.2.2.2 2 2 2 3 (("2,2 +2,3 @@").data) [] rfl⟩

/-! ### Outcome invariants: one result per hunk, ordered application -/

theorem exactAt_some (lines : List Line) (minIdx : Nat) (needle : List Line)
    (e : Int) (n : Nat) (he : exactAt lines minIdx needle e = some n) :
    (n : Int) = e ∧ minIdx ≤ n ∧ n + needle.length ≤ lines.length ∧
      (lines.drop n).take needle.length = needle := by
  unfold exactAt at he
  by_cases hneg : e < 0
  · rw [if_pos hneg] at he; cases he
  · rw [if_neg hneg] at he
    by_cases hcond : minIdx ≤ e.toNat ∧ e.toNat + needle.length ≤ lines.length ∧
        (lines.drop e.toNat).take needle.length = needle
    · rw [if_pos hcond] at he
      cases he
      exact ⟨Int.toNat_of_nonneg (not_lt.mp hneg), hcond.1, hcond.2.1, hcond.2.2⟩
    · rw [if_neg hcond] at he; cases he

theorem resolveHunk_minIdx_le (lines : List Line) (minIdx : Nat)
    (needle : List Line) (e : Int) (n : Nat) (s : PatchStatus)
    (hr : resolveHunk lines minIdx needle e = some (n, s)) : minIdx ≤ n := by
  rcases resolveHunk_cases lines minIdx needle e n s hr with ⟨_, he⟩ | ⟨_, _, hf⟩
  · exact (exactAt_some lines minIdx needle e n he).2.1
  · obtain ⟨ht, _, _⟩ :=
      fuzzySearch_some lines minIdx needle e (maxFuzzyOffset + 1) 0 n hf
        (fun m _ hlt => by omega)
    exact (tryCandidate_some lines minIdx needle (n : Int) n ht).2.1

theorem applyHunk_step (st st2 : ApplyState) (h : Hunk)
    (hok : applyHunk st h = .ok st2) :
    ∃ r : PatchResult, st2.results = st.results ++ [r] ∧
      ((r.status = PatchStatus.failed ∧ r.resolvedLine = none ∧
        st2.minIdx = st.minIdx ∧ st2.lines = st.lines ∧ st2.delta = st.delta) ∨
       (∃ n : Nat, r.resolvedLine = some n ∧ st.minIdx ≤ n ∧
        st2.minIdx = n + (replacementOf h).length)) := by
  by_cases hv : hunkValid h = true
  · rcases hrc : resolveHunk st.lines st.minIdx (needleOf h) (expectedIndex h st.delta)
      with _ | ⟨n, s⟩
    · rw [applyHunk_of_unresolved st h hv hrc] at hok
      cases hok
      exact ⟨_, rfl, Or.inl ⟨rfl, rfl, rfl, rfl, rfl⟩⟩
    · rw [applyHunk_of_resolved st h n s hv hrc] at hok
      cases hok
      exact ⟨_, rfl, Or.inr ⟨n, rfl,
        resolveHunk_minIdx_le st.lines st.minIdx (needleOf h)
          (expectedIndex h st.delta) n s hrc, rfl⟩⟩
  · rw [applyHunk_of_invalid st h (by simpa using hv)] at hok
    cases hok

theorem applyGo_invariant (hunks : List Hunk) : ∀ st st2 : ApplyState,
    applyGo st hunks = .ok st2 →
    List.Pairwise (· ≤ ·) (appliedLines st.results) →
    (∀ x ∈ appliedLines st.results, x ≤ st.minIdx) →
    st2.results.length = st.results.length + hunks.length ∧
      List.Pairwise (· ≤ ·) (appliedLines st2.results) ∧
      (∀ x ∈ appliedLines st2.results, x ≤ st2.minIdx) := by
  induction hunks with
  | nil =>
    intro st st2 hok hp hb
    rw [applyGo] at hok
    cases hok
    exact ⟨rfl, hp, hb⟩
  | cons h hs ih =>
    intro st st2 hok hp hb
    rw [applyGo] at hok
    cases hm : applyHunk st h with
    | error e => rw [hm] at hok; cases hok
    | ok stm =>
      rw [hm] at hok
      obtain ⟨r, hres, hcase⟩ := applyHunk_step st stm h hm
      have hlen : stm.results.length = st.results.length + 1 := by
        rw [hres]; simp
      rcases hcase with ⟨_, hnone, hmin, _, _⟩ | ⟨n, hsome, hge, hmin⟩
      · have hal : appliedLines stm.results = appliedLines st.results := by
          rw [hres, appliedLines, List.filterMap_append]
          simp [appliedLines, hnone]
        obtain ⟨l1, l2, l3⟩ := ih stm st2 hok (by rw [hal]; exact hp)
          (by rw [hal, hmin]; exact hb)
        exact ⟨by simp only [List.length_cons]; omega, l2, l3⟩
      · have hal : appliedLines stm.results = appliedLines st.results ++ [n] := by
          rw [hres, appliedLines, List.filterMap_append]
          simp [appliedLines, hsome]
        have hp2 : List.Pairwise (· ≤ ·) (appliedLines stm.results) := by
          rw [hal]
          rw [List.pairwise_append]
          refine ⟨hp, List.pairwise_singleton _ _, ?_⟩
          intro a ha b hbmem
          rw [List.mem_singleton] at hbmem
          subst hbmem
          exact le_trans (hb a ha) hge
        have hb2 : ∀ x ∈ appliedLines stm.results, x ≤ stm.minIdx := by
          intro x hx
          rw [hal, List.mem_append, List.mem_singleton] at hx
          rcases hx with hx | rfl
          · calc x ≤ st.minIdx := hb x hx
              _ ≤ n := hge
              _ ≤ stm.minIdx := by rw [hmin]; omega
          · rw [hmin]; omega
        obtain ⟨l1, l2, l3⟩ := ih stm st2 hok hp2 hb2
        exact ⟨by simp only [List.length_cons]; omega, l2, l3⟩

/-- C4: every successful `apply` yields exactly one result per hunk, in
hunk order; the hunks that did apply have weakly ascending resolved
positions; each resolution is bounded below by the running window start
(the previous hunk's resolved end); and each applied hunk advances the
window start to its resolved position plus its replacement's length while
a failed hunk leaves window, buffer and delta untouched. -/
theorem outcome_invariant_spec (orig : List Line) (hunks : List Hunk)
    (outcome : PatchOutcome) :
    (apply orig hunks = .ok outcome →
      outcome.results.length = hunks.length ∧
      List.Pairwise (· ≤ ·) (appliedLines outcome.results)) ∧
    (∀ lines : List Line, ∀ minIdx : Nat, ∀ needle : List Line, ∀ e : Int,
      ∀ n : Nat, ∀ s : PatchStatus,
      resolveHunk lines minIdx needle e = some (n, s) → minIdx ≤ n) ∧
    (∀ st st2 : ApplyState, ∀ h : Hunk, applyHunk st h = .ok st2 →
      ∃ r : PatchResult, st2.results = st.results ++ [r] ∧
        ((r.status = PatchStatus.failed ∧ r.resolvedLine = none ∧
          st2.minIdx = st.minIdx ∧ st2.lines = st.lines ∧ st2.delta = st.delta) ∨
         (∃ n : Nat, r.resolvedLine = some n ∧ st.minIdx ≤ n ∧
          st2.minIdx = n + (replacementOf h).length))) := by
  refine ⟨?_, resolveHunk_minIdx_le, applyHunk_step⟩
  intro happ
  unfold apply at happ
  cases hg : applyGo ⟨orig, 0, 0, []⟩ hunks with
  | error e => rw [hg] at happ; cases happ
  | ok st =>
    rw [hg] at happ
    cases happ
    obtain ⟨l1, l2, _⟩ := applyGo_invariant hunks ⟨orig, 0, 0, []⟩ st hg
      (by simp [appliedLines]) (by simp [appliedLines])
    exact ⟨by simpa using l1, l2⟩

/-- Witness for C4 at the concrete two-hunk diff: two results, resolved
lines 1 and 7 in ascending order. -/
theorem outcome_invariant_spec_witness :
    apply [("l1").data, ("l2").data, ("l3").data, ("l4").data, ("l5").data,
        ("l6").data]
      [⟨2, 1, 2, 4, [⟨LineTag.context, ("l2").data⟩, ⟨LineTag.added, ("a").data⟩,
          ⟨LineTag.added, ("b").data⟩, ⟨LineTag.added, ("c").data⟩]⟩,
       ⟨5, 1, 8, 1, [⟨LineTag.removed, ("l5").data⟩,
          ⟨LineTag.added, ("L5").data⟩]⟩] =
      .ok ⟨[("l1").data, ("l2").data, ("a").data, ("b").data, ("c").data,
          ("l3").data, ("l4").data, ("L5").data, ("l6").data],
        [⟨PatchStatus.applied_exact, some 1, none⟩,
         ⟨PatchStatus.applied_exact, some 7, none⟩]⟩ ∧
    ([⟨PatchStatus.applied_exact, some 1, none⟩,
      ⟨PatchStatus.applied_exact, some 7, none⟩] : List PatchResult).length = 2 ∧
    List.Pairwise (· ≤ ·) (appliedLines
      [⟨PatchStatus.applied_exact, some 1, none⟩,
       ⟨PatchStatus.applied_exact, some 7, none⟩]) :=
  ⟨rfl,
    (outcome_invariant_spec
      [("l1").data, ("l2").data, ("l3").data, ("l4").data, ("l5").data,
        ("l6").data]
      [⟨2, 1, 2, 4, [⟨LineTag.context, ("l2").data⟩, ⟨LineTag.added, ("a").data⟩,
          ⟨LineTag.added, ("b").data⟩, ⟨LineTag.added, ("c").data⟩]⟩,
       ⟨5, 1, 8, 1, [⟨LineTag.removed, ("l5").data⟩,
          ⟨LineTag.added, ("L5").data⟩]⟩]
      ⟨[("l1").data, ("l2").data, ("a").data, ("b").data, ("c").data,
          ("l3").data, ("l4").data, ("L5").data, ("l6").data],
        [⟨PatchStatus.applied_exact, some 1, none⟩,
         ⟨PatchStatus.applied_exact, some 7, none⟩]⟩).1 rfl⟩

/-! ### The round-trip property for the modelled diff generator -/

theorem digitChar_charToDigit : ∀ d : Nat, d < 10 →
    charToDigit (Nat.digitChar d) = d ∧ (Nat.digitChar d).isDigit = true := by
  decide

theorem renderNatAux_foldl : ∀ fuel n : Nat, n ≤ fuel → ∀ acc : Nat,
    List.foldl (fun a c => 10 * a + charToDigit c) acc (renderNatAux fuel n) =
      acc * 10 ^ (renderNatAux fuel n).length + n := by
  intro fuel
  induction fuel with
  | zero =>
    intro n hn acc
    interval_cases n
    simp [renderNatAux]
  | succ fuel ih =>
    intro n hn acc
    cases n with
    | zero => simp [renderNatAux]
    | succ m =>
      rw [renderNatAux]
      rw [List.foldl_append]
      simp only [List.foldl_cons, List.foldl_nil]
      have hd : (m + 1) / 10 ≤ fuel := by
        have := Nat.div_le_self (m + 1) 10
        have := Nat.div_lt_self (Nat.succ_pos m) (by norm_num : 1 < 10)
        omega
      rw [ih ((m + 1) / 10) hd acc]
      rw [(digitChar_charToDigit ((m + 1) % 10) (Nat.mod_lt _ (by norm_num))).1]
      rw [List.length_append, List.length_cons, List.length_nil]
      rw [pow_succ, ← mul_assoc]
      have hdm : 10 * ((m + 1) / 10) + (m + 1) % 10 = m + 1 :=
        Nat.div_add_mod (m + 1) 10
      set X := acc * 10 ^ (renderNatAux fuel ((m + 1) / 10)).length with hX
      omega

theorem digitsToNat_renderNat (n : Nat) : digitsToNat (renderNat n) = n := by
  by_cases hn : n = 0
  · subst hn; rfl
  · rw [renderNat, if_neg hn, digitsToNat]
    rw [renderNatAux_foldl n n le_rfl 0]
    simp

theorem renderNatAux_digits : ∀ fuel n : Nat, ∀ c ∈ renderNatAux fuel n,
    c.isDigit = true := by
  intro fuel
  induction fuel with
  | zero => intro n c hc; simp [renderNatAux] at hc
  | succ fuel ih =>
    intro n c hc
    cases n with
    | zero => simp [renderNatAux] at hc
    | succ m =>
      rw [renderNatAux] at hc
      rw [List.mem_append, List.mem_singleton] at hc
      rcases hc with hc | rfl
      · exact ih _ c hc
      · exact (digitChar_charToDigit ((m + 1) % 10) (Nat.mod_lt _ (by norm_num))).2

theorem renderNat_digits (n : Nat) : ∀ c ∈ renderNat n, c.isDigit = true := by
  intro c hc
  by_cases hn : n = 0
  · subst hn
    rw [renderNat, if_pos rfl, List.mem_singleton] at hc
    subst hc
    decide
  · rw [renderNat, if_neg hn] at hc
    exact renderNatAux_digits n n c hc

theorem renderNat_ne_nil (n : Nat) : renderNat n ≠ [] := by
  by_cases hn : n = 0
  · subst hn; rw [renderNat]; simp
  · rw [renderNat, if_neg hn]
    cases n with
    | zero => exact absurd rfl hn
    | succ m =>
      rw [renderNatAux]
      simp

theorem takeDigits_cons_of_digit (c : Char) (cs : Line) (hc : c.isDigit = true) :
    takeDigits (c :: cs) = (c :: (takeDigits cs).1, (takeDigits cs).2) := by
  simp [takeDigits, hc]

theorem takeDigits_cons_of_not (c : Char) (cs : Line) (hc : c.isDigit = false) :
    takeDigits (c :: cs) = ([], c :: cs) := by
  simp [takeDigits, hc]

theorem takeDigits_append (ds : List Char) (rest : Line)
    (hds : ∀ c ∈ ds, c.isDigit = true)
    (hrest : ∀ c : Char, rest.head? = some c → c.isDigit = false) :
    takeDigits (ds ++ rest) = (ds, rest) := by
  induction ds with
  | nil =>
    cases rest with
    | nil => rfl
    | cons c rs =>
      simpa using takeDigits_cons_of_not c rs (hrest c rfl)
  | cons d ds ih =>
    have hd : d.isDigit = true := hds d (List.mem_cons_self d ds)
    rw [List.cons_append, takeDigits_cons_of_digit d (ds ++ rest) hd]
    rw [ih (fun c hc => hds c (List.mem_cons_of_mem d hc))]

theorem parseNat_render (n : Nat) (rest : Line)
    (hrest : ∀ c : Char, rest.head? = some c → c.isDigit = false) :
    parseNat (renderNat n ++ rest) = some (n, rest) := by
  rw [parseNat]
  rw [takeDigits_append (renderNat n) rest (renderNat_digits n) hrest]
  simp [renderNat_ne_nil n, digitsToNat_renderNat n]

theorem parseNat_one_comma (w : Line) :
    parseNat ('1' :: ',' :: w) = some (1, ',' :: w) := by
  rw [parseNat]
  rw [takeDigits_cons_of_digit '1' (',' :: w) (by decide)]
  rw [takeDigits_cons_of_not ',' w (by decide)]
  simp [digitsToNat, charToDigit]

theorem parseRange_gen (a : Nat) (rest : Line)
    (hrest : ∀ c : Char, rest.head? = some c → c.isDigit = false) :
    parseRange ('1' :: ',' :: (renderNat a ++ rest)) = some (1, a, rest) := by
  simp only [parseRange, parseNat_one_comma, parseNat_render a rest hrest]

theorem parseHeader_gen (a b : Nat) :
    parseHeader ('1' :: ',' :: (renderNat a ++
        (' ' :: '+' :: '1' :: ',' :: (renderNat b ++ [' ', '@', '@'])))) =
      some (1, a, 1, b) := by
  simp only [parseHeader,
    parseRange_gen a (' ' :: '+' :: '1' :: ',' :: (renderNat b ++ [' ', '@', '@']))
      (fun c hc => by cases hc; decide),
    parseRange_gen b [' ', '@', '@'] (fun c hc => by cases hc; decide)]

theorem diffGen_eq (A B : List Line) :
    diffGen A B =
      ('@' :: '@' :: ' ' :: '-' :: ('1' :: ',' :: (renderNat A.length ++
        (' ' :: '+' :: '1' :: ',' :: (renderNat B.length ++ [' ', '@', '@'])))))
      :: (A.map (fun l => '-' :: l) ++ B.map (fun l => '+' :: l)) := by
  simp [diffGen]

theorem parseInHunk_removed_map (A : List Line)
    (hA : ∀ a ∈ A, dropPre ['-', '-'] a = none) :
    ∀ s sc t tc : Nat, ∀ acc : List TaggedLine, ∀ rest : List Line,
    parseInHunk s sc t tc acc (A.map (fun l => '-' :: l) ++ rest) =
      parseInHunk s sc t tc
        ((A.map (fun l => (⟨LineTag.removed, l⟩ : TaggedLine))).reverse ++ acc)
        rest := by
  induction A with
  | nil => intro s sc t tc acc rest; simp
  | cons a A ih =>
    intro s sc t tc acc rest
    rw [List.map_cons, List.cons_append]
    rw [parseInHunk_removed s sc t tc acc a _
      (hA a (List.mem_cons_self a A))]
    rw [ih (fun x hx => hA x (List.mem_cons_of_mem a hx))]
    rw [List.map_cons, List.reverse_cons, List.append_assoc]
    rfl

theorem parseInHunk_added_map (B : List Line)
    (hB : ∀ b ∈ B, dropPre ['+', '+'] b = none) :
    ∀ s sc t tc : Nat, ∀ acc : List TaggedLine, ∀ rest : List Line,
    parseInHunk s sc t tc acc (B.map (fun l => '+' :: l) ++ rest) =
      parseInHunk s sc t tc
        ((B.map (fun l => (⟨LineTag.added, l⟩ : TaggedLine))).reverse ++ acc)
        rest := by
  induction B with
  | nil => intro s sc t tc acc rest; simp
  | cons b B ih =>
    intro s sc t tc acc rest
    rw [List.map_cons, List.cons_append]
    rw [parseInHunk_added s sc t tc acc b _
      (hB b (List.mem_cons_self b B))]
    rw [ih (fun x hx => hB x (List.mem_cons_of_mem b hx))]
    rw [List.map_cons, List.reverse_cons, List.append_assoc]
    rfl

theorem ctxRemCount_gen (A B : List Line) :
    ctxRemCount (A.map (fun l => (⟨LineTag.removed, l⟩ : TaggedLine)) ++
      B.map (fun l => (⟨LineTag.added, l⟩ : TaggedLine))) = A.length := by
  have e1 : ∀ l : Line,
      ((fun tl : TaggedLine => !decide (tl.tag = LineTag.added)) ∘
        fun l : Line => (⟨LineTag.removed, l⟩ : TaggedLine)) l = true := by
    intro l; simp
  have e2 : ∀ l : Line,
      ((fun tl : TaggedLine => !decide (tl.tag = LineTag.added)) ∘
        fun l : Line => (⟨LineTag.added, l⟩ : TaggedLine)) l = false := by
    intro l; simp
  simp [ctxRemCount, List.filter_append, List.filter_map,
    List.filter_congr (fun x _ => e1 x), List.filter_congr (fun x _ => e2 x)]

theorem ctxAddCount_gen (A B : List Line) :
    ctxAddCount (A.map (fun l => (⟨LineTag.removed, l⟩ : TaggedLine)) ++
      B.map (fun l => (⟨LineTag.added, l⟩ : TaggedLine))) = B.length := by
  have e1 : ∀ l : Line,
      ((fun tl : TaggedLine => !decide (tl.tag = LineTag.removed)) ∘
        fun l : Line => (⟨LineTag.removed, l⟩ : TaggedLine)) l = false := by
    intro l; simp
  have e2 : ∀ l : Line,
      ((fun tl : TaggedLine => !decide (tl.tag = LineTag.removed)) ∘
        fun l : Line => (⟨LineTag.added, l⟩ : TaggedLine)) l = true := by
    intro l; simp
  simp [ctxAddCount, List.filter_append, List.filter_map,
    List.filter_congr (fun x _ => e1 x), List.filter_congr (fun x _ => e2 x)]

theorem parse_diffGen (A B : List Line)
    (hA : ∀ a ∈ A, dropPre ['-', '-'] a = none)
    (hB : ∀ b ∈ B, dropPre ['+', '+'] b = none) :
    parse (diffGen A B) = .ok [genHunk A B] := by
  rw [parse, diffGen_eq]
  rw [parsePre_header 1 A.length 1 B.length _ _ (parseHeader_gen A.length B.length)]
  rw [parseInHunk_removed_map A hA]
  rw [← List.append_nil (B.map (fun l => '+' :: l))]
  rw [parseInHunk_added_map B hB]
  rw [parseInHunk]
  rw [List.append_nil]
  rw [List.reverse_append, List.reverse_reverse, List.reverse_reverse]
  rw [mkHunk, if_pos ⟨(ctxRemCount_gen A B).symm, (ctxAddCount_gen A B).symm⟩]
  rfl

theorem filterMap_needle_removed (A : List Line) :
    List.filterMap
      (fun tl : TaggedLine =>
        if tl.tag = LineTag.added then none else some tl.text)
      (A.map fun l => (⟨LineTag.removed, l⟩ : TaggedLine)) = A := by
  induction A with
  | nil => rfl
  | cons a A ih => simp [List.filterMap_cons, ih]

theorem filterMap_needle_added (B : List Line) :
    List.filterMap
      (fun tl : TaggedLine =>
        if tl.tag = LineTag.added then none else some tl.text)
      (B.map fun l => (⟨LineTag.added, l⟩ : TaggedLine)) = [] := by
  induction B with
  | nil => rfl
  | cons b B ih => simp [List.filterMap_cons, ih]

theorem filterMap_repl_removed (A : List Line) :
    List.filterMap
      (fun tl : TaggedLine =>
        if tl.tag = LineTag.removed then none else some tl.text)
      (A.map fun l => (⟨LineTag.removed, l⟩ : TaggedLine)) = [] := by
  induction A with
  | nil => rfl
  | cons a A ih => simp [List.filterMap_cons, ih]

theorem filterMap_repl_added (B : List Line) :
    List.filterMap
      (fun tl : TaggedLine =>
        if tl.tag = LineTag.removed then none else some tl.text)
      (B.map fun l => (⟨LineTag.added, l⟩ : TaggedLine)) = B := by
  induction B with
  | nil => rfl
  | cons b B ih => simp [List.filterMap_cons, ih]

theorem needleOf_gen (A B : List Line) : needleOf (genHunk A B) = A := by
  rw [needleOf, genHunk]
  rw [List.filterMap_append, filterMap_needle_removed, filterMap_needle_added]
  simp

theorem replacementOf_gen (A B : List Line) : replacementOf (genHunk A B) = B := by
  rw [replacementOf, genHunk]
  rw [List.filterMap_append, filterMap_repl_removed, filterMap_repl_added]
  simp

theorem hunkValid_gen (A B : List Line) : hunkValid (genHunk A B) = true := by
  simp only [hunkValid, genHunk, decide_eq_true_eq]
  simp only [List.length_append, List.length_map]
  refine ⟨by positivity, by positivity, ?_, ?_⟩ <;> push_cast <;> omega

theorem exactAt_self (lines : List Line) : exactAt lines 0 lines 0 = some 0 := by
  rw [exactAt, if_neg (by omega), if_pos] <;> simp

theorem apply_genHunk (A B : List Line) :
    apply A [genHunk A B] =
      .ok ⟨B, [⟨PatchStatus.applied_exact, some 0, none⟩]⟩ := by
  have he : expectedIndex (genHunk A B) 0 = 0 := by
    simp [expectedIndex, genHunk]
  have hres : resolveHunk A 0 (needleOf (genHunk A B))
      (expectedIndex (genHunk A B) 0) = some (0, PatchStatus.applied_exact) := by
    rw [needleOf_gen, he, resolveHunk, exactAt_self]
  have h1 := applyHunk_of_resolved ⟨A, 0, 0, []⟩ (genHunk A B) 0
    PatchStatus.applied_exact (hunkValid_gen A B) hres
  unfold apply
  simp only [applyGo, h1]
  simp [needleOf_gen, replacementOf_gen, List.drop_length]

/-- C1 counterexample: the round-trip fails as universally stated: for
`A = ["--x"]`, `B = ["y"]` the generated diff renders the removed line as
`---x`, which the parser skips as a file header, so the hunk's declared
source count is inconsistent with its lines and `parse` aborts — no parse
exists to apply, and the result is not `B`. -/
theorem round_trip_counterexample :
    diffGen [['-', '-', 'x']] [['y']] =
      [("@@ -1,1 +1,1 @@").data, ("---x").data, ("+y").data] ∧
    parse (diffGen [['-', '-', 'x']] [['y']]) =
      .error ⟨"inconsistent line counts in hunk"⟩ :=
  ⟨rfl, rfl⟩

/-- C1 (amended): for all line sequences `A` and `B` in which no line of
`A` begins with `--` and no line of `B` begins with `++` (so that no body
line of the generated diff collides with a `---`/`+++` file-header
pattern), applying the parse of the generated diff of `A` against `B` to
`A` yields exactly `B`, with every hunk `applied_exact`. -/
theorem round_trip_amended (A B : List Line)
    (hA : ∀ a ∈ A, dropPre ['-', '-'] a = none)
    (hB : ∀ b ∈ B, dropPre ['+', '+'] b = none) :
    ∃ hs : List Hunk, ∃ outcome : PatchOutcome,
      parse (diffGen A B) = .ok hs ∧ apply A hs = .ok outcome ∧
      outcome.text = B ∧
      ∀ r ∈ outcome.results, r.status = PatchStatus.applied_exact := by
  refine ⟨[genHunk A B], ⟨B, [⟨PatchStatus.applied_exact, some 0, none⟩]⟩,
    parse_diffGen A B hA hB, apply_genHunk A B, rfl, ?_⟩
  intro r hr
  rw [List.mem_singleton] at hr
  subst hr
  rfl

/-- Witness for the amended C1 at `A = ["a"]`, `B = ["b", "c"]`. -/
theorem round_trip_amended_witness :
    (∀ a ∈ [['a']], dropPre ['-', '-'] a = none) ∧
    (∀ b ∈ [['b'], ['c']], dropPre ['+', '+'] b = none) ∧
    ∃ hs : List Hunk, ∃ outcome : PatchOutcome,
      parse (diffGen [['a']] [['b'], ['c']]) = .ok hs ∧
      apply [['a']] hs = .ok outcome ∧ outcome.text = [['b'], ['c']] ∧
      ∀ r ∈ outcome.results, r.status = PatchStatus.applied_exact :=
  ⟨by decide, by decide,
    round_trip_amended [['a']] [['b'], ['c']] (by decide) (by decide)⟩

end UnifiedDiff

namespace Frontend

/-- C9: for every configured model list, each modal's `comboboxItems`
contains exactly the items derived from the non-coming-soon models (an item
is in the list iff it is the image of some member model whose `comingSoon`
flag is falsy), and every derived item's `value` is the model's `id` and its
`label` the model's `name`. -/
theorem comboboxItems_spec (models : List Model) :
    (∀ it : OnbComboboxItem,
        it ∈ onboardingComboboxItems models ↔
          ∃ m : Model, m ∈ models ∧ isComingSoon m = false ∧ it = onboardingItem m) ∧
    (∀ it : SetComboboxItem,
        it ∈ settingsComboboxItems models ↔
          ∃ m : Model, m ∈ models ∧ isComingSoon m = false ∧ it = settingsItem m) ∧
    (∀ m : Model,
        (onboardingItem m).value = m.id ∧ (onboardingItem m).label = m.name ∧
        (settingsItem m).value = m.id ∧ (settingsItem m).label = m.name) := by
  refine ⟨?_, ?_, ?_⟩
  · intro it
    constructor
    · intro h
      rw [onboardingComboboxItems, List.mem_map] at h
      obtain ⟨m, hm, rfl⟩ := h
      rw [List.mem_filter] at hm
      exact ⟨m, hm.1, by simpa using hm.2, rfl⟩
    · rintro ⟨m, hm, hcs, rfl⟩
      rw [onboardingComboboxItems, List.mem_map]
      exact ⟨m, List.mem_filter.2 ⟨hm, by simp [hcs]⟩, rfl⟩
  · intro it
    constructor
    · intro h
      rw [settingsComboboxItems, List.mem_map] at h
      obtain ⟨m, hm, rfl⟩ := h
      rw [List.mem_filter] at hm
      exact ⟨m, hm.1, by simpa using hm.2, rfl⟩
    · rintro ⟨m, hm, hcs, rfl⟩
      rw [settingsComboboxItems, List.mem_map]
      exact ⟨m, List.mem_filter.2 ⟨hm, by simp [hcs]⟩, rfl⟩
  · intro m
    exact ⟨rfl, rfl, rfl, rfl⟩

/-- C10: `validateFields` is true exactly when the folder path is non-empty
and the API key is non-empty or already saved; the start-chat button is
disabled exactly when `validateFields` is false, so an enabled button
guarantees both a project folder and an API key. -/
theorem validateFields_spec (st : OnboardingState) :
    (validateFields st = true ↔
      st.folderPath ≠ "" ∧ (st.apiKey ≠ "" ∨ st.isKeySaved = true)) ∧
    (startChatButtonDisabled st = true ↔ validateFields st = false) ∧
    (startChatButtonDisabled st = false →
      st.folderPath ≠ "" ∧ (st.apiKey ≠ "" ∨ st.isKeySaved = true)) := by
  refine ⟨?_, ?_, ?_⟩
  · simp only [validateFields, Bool.and_eq_true, Bool.or_eq_true, bne_iff_ne]
    tauto
  · simp [startChatButtonDisabled]
  · intro hd
    have hv : validateFields st = true := by
      simpa [startChatButtonDisabled] using hd
    simp only [validateFields, Bool.and_eq_true, Bool.or_eq_true, bne_iff_ne] at hv
    tauto

/-- Witness for C9 at a concrete model. -/
theorem comboboxItems_spec_witness :
    (onboardingItem ⟨"m1", "Model One", "Acme", none, none⟩).value = "m1" ∧
    (onboardingItem ⟨"m1", "Model One", "Acme", none, none⟩).label = "Model One" ∧
    (settingsItem ⟨"m1", "Model One", "Acme", none, none⟩).value = "m1" ∧
    (settingsItem ⟨"m1", "Model One", "Acme", none, none⟩).label = "Model One" :=
  (comboboxItems_spec []).2.2 ⟨"m1", "Model One", "Acme", none, none⟩

/-- Witness for C10: with a folder selected and a key entered, the button
is enabled and both requirements hold. -/
theorem validateFields_spec_witness :
    startChatButtonDisabled ⟨"/proj", "key", false⟩ = false ∧
    ((⟨"/proj", "key", false⟩ : OnboardingState).folderPath ≠ "" ∧
      ((⟨"/proj", "key", false⟩ : OnboardingState).apiKey ≠ "" ∨
        (⟨"/proj", "key", false⟩ : OnboardingState).isKeySaved = true)) :=
  ⟨rfl, (validateFields_spec ⟨"/proj", "key", false⟩).2.2 rfl⟩

end Frontend

